import Mathlib

/-!
Shallow embedding of `src/app.py` (SRT gap normalizer).

Strings are modeled as `List Char`; `datetime.timedelta` values are modeled as
their exact integer microsecond count (`Int`), with the CPython range check on
construction (`OverflowError` outside it) surfaced as `Except PyErr`.
The float expression `int(td.total_seconds() * 1000)` in `format_time` is
modeled exactly: `total_seconds()` performs one correctly rounded IEEE-754
binary64 division of the integer microsecond count by `10^6`, the `* 1000`
is a second correctly rounded binary64 operation, and `int(...)` truncates
toward zero.  Both roundings are round-to-nearest, ties-to-even, on a 53-bit
significand (all intermediate values are well inside the normal range).
-/

/-- The characters of a Python `str`, as a list. -/
def chars (s : String) : List Char := s.data

/-- Whitespace recognized by Python `str.strip()` (code points below `U+0100`;
the rarer space code points above that range are not used by any input here). -/
def isStripWs (c : Char) : Bool :=
  c == ' ' || c == '\t' || c == '\n' || c == '\x0b' || c == '\x0c' || c == '\r' ||
  c == '\x1c' || c == '\x1d' || c == '\x1e' || c == '\x1f' || c == '\x85' || c == '\xa0'

/-- Whitespace accepted around a numeral by Python `int(str)`; unlike
`str.strip()` this excludes the file/group/record/unit separators. -/
def isIntWs (c : Char) : Bool :=
  c == ' ' || c == '\t' || c == '\n' || c == '\x0b' || c == '\x0c' || c == '\r' ||
  c == '\x85' || c == '\xa0'

/-- Python `s.strip()`: remove leading and trailing whitespace. -/
def pyStrip (l : List Char) : List Char :=
  ((l.dropWhile isStripWs).reverse.dropWhile isStripWs).reverse

/-- Strip of `int()`-style whitespace, used inside `pyInt`. -/
def pyIntStrip (l : List Char) : List Char :=
  ((l.dropWhile isIntWs).reverse.dropWhile isIntWs).reverse

/-- Python `s.split(sep)` for a nonempty separator: non-overlapping matches,
scanned left to right.  The fuel argument only serves termination; it is one
more than the length of the remaining text, and one unit is spent per
character consumed, so it never runs out for a nonempty separator. -/
def pySplitAux (sep : List Char) : Nat → List Char → List Char → List (List Char)
  | 0, xs, acc => [acc.reverse ++ xs]
  | fuel + 1, xs, acc =>
    if sep.isPrefixOf xs then
      acc.reverse :: pySplitAux sep fuel (xs.drop sep.length) []
    else
      match xs with
      | [] => [acc.reverse]
      | c :: rest => pySplitAux sep fuel rest (c :: acc)

/-- Python `s.split(sep)` (nonempty `sep`). -/
def pySplit (sep : List Char) (xs : List Char) : List (List Char) :=
  pySplitAux sep (xs.length + 1) xs []

/-- Python `needle in hay` substring test. -/
def pyContains (needle : List Char) : List Char → Bool
  | [] => needle.isEmpty
  | c :: rest => needle.isPrefixOf (c :: rest) || pyContains needle rest

/-- Python `sep.join(parts)`. -/
def pyJoin (sep : List Char) : List (List Char) → List Char
  | [] => []
  | [x] => x
  | x :: y :: rest => x ++ sep ++ pyJoin sep (y :: rest)

/-- Python `s.replace(old, new)` for a nonempty `old`: replace every
non-overlapping occurrence, scanning left to right. -/
def pyReplace (old new s : List Char) : List Char :=
  pyJoin new (pySplit old s)

/-- Decimal digit value of a character, if it is an ASCII digit. -/
def digitVal (c : Char) : Option Nat :=
  if '0' ≤ c ∧ c ≤ '9' then some (c.toNat - '0'.toNat) else none

/-- Digits of a Python integer literal after the first one: ASCII digits with
single underscores allowed between digits (CPython's PEP 515 rule). -/
def pyDigitsAux : List Char → Nat → Option Nat
  | [], acc => some acc
  | '_' :: c :: rest, acc =>
    match digitVal c with
    | some d => pyDigitsAux rest (acc * 10 + d)
    | none => none
  | ['_'], _ => none
  | c :: rest, acc =>
    match digitVal c with
    | some d => pyDigitsAux rest (acc * 10 + d)
    | none => none

/-- An unsigned run of digits (at least one, underscores between digits). -/
def pyDigits : List Char → Option Nat
  | [] => none
  | c :: rest =>
    match digitVal c with
    | some d => pyDigitsAux rest d
    | none => none

/-- The numeral after whitespace stripping: optional sign, then digits. -/
def pyIntCore : List Char → Option Int
  | '+' :: rest => (pyDigits rest).map (fun n => (n : Int))
  | '-' :: rest => (pyDigits rest).map (fun n => -(n : Int))
  | l => (pyDigits l).map (fun n => (n : Int))

/-- Python `int(s)` for a decimal string: `some` value, or `none` for the
`ValueError` cases (ASCII digits only; non-ASCII decimal digits are not used
by any input considered here). -/
def pyInt (s : List Char) : Option Int :=
  pyIntCore (pyIntStrip s)

/-- The Python exceptions that can escape `process_srt_content`:
only `OverflowError` from `datetime.timedelta` (a `ValueError` is always
caught inside `parse_time` or by the block-level handler). -/
inductive PyErr where
  | overflow
deriving DecidableEq, Repr

/-- Decidable equality of call results, used to evaluate the model on
concrete inputs. -/
instance {ε α : Type} [DecidableEq ε] [DecidableEq α] : DecidableEq (Except ε α) :=
  fun a b =>
    match a, b with
    | .ok x, .ok y =>
      if h : x = y then .isTrue (by rw [h])
      else .isFalse (by intro hc; cases hc; exact h rfl)
    | .error x, .error y =>
      if h : x = y then .isTrue (by rw [h])
      else .isFalse (by intro hc; cases hc; exact h rfl)
    | .ok _, .error _ => .isFalse (by intro hc; cases hc)
    | .error _, .ok _ => .isFalse (by intro hc; cases hc)

/-- `datetime.timedelta` built from an exact integer count of microseconds.
CPython normalizes to days/seconds/microseconds with floored division and
raises `OverflowError` unless `-999999999 <= days <= 999999999`; that
condition on floored days is equivalent to the direct microsecond bounds
`-999999999*86400000000 ≤ us < 1000000000*86400000000` used here. -/
def mkTimedelta (us : Int) : Except PyErr Int :=
  if -86399999913600000000 ≤ us ∧ us < 86400000000000000000 then .ok us
  else .error .overflow

/-- The field decomposition done by `parse_time`'s `try` block before the
`timedelta` call: `h, m, s_ms = t.split(":")`, `s, ms = s_ms.split(",")`,
then `int(...)` on each component.  `none` is the caught `ValueError`. -/
def timeFields (t : List Char) : Option (Int × Int × Int × Int) :=
  match pySplit (chars ":") t with
  | [h, m, s_ms] =>
    match pySplit (chars ",") s_ms with
    | [s, ms] =>
      match pyInt h, pyInt m, pyInt s, pyInt ms with
      | some hv, some mv, some sv, some msv => some (hv, mv, sv, msv)
      | _, _, _, _ => none
    | _ => none
  | _ => none

/-- `parse_time(t)`: on any `ValueError` (wrong field count, bad numeral) it
returns the zero timedelta; the `timedelta(...)` construction itself can
raise `OverflowError`, which `except ValueError` does not catch. -/
def parse_time (t : List Char) : Except PyErr Int :=
  match timeFields t with
  | none => .ok 0
  | some (h, m, s, ms) =>
    mkTimedelta ((h * 3600 + m * 60 + s) * 1000000 + ms * 1000)

/-- Fuel-driven floor of `log2` (`log2fuel fuel n = Nat.log2 n` whenever
`n < 2 ^ fuel`); written with explicit fuel so that it reduces by kernel
computation. -/
def log2fuel : Nat → Nat → Nat
  | 0, _ => 0
  | fuel + 1, n => if n ≤ 1 then 0 else log2fuel fuel (n / 2) + 1

/-- Floor of `log2 n` for `n < 2 ^ 128` (ample for every value reachable from
a valid timedelta). -/
def natLog2 (n : Nat) : Nat := log2fuel 128 n

/-- Round-to-nearest, ties-to-even integer division: the IEEE-754 rounding of
the exact quotient `p / q` to an integer. -/
def rheDiv (p q : Nat) : Nat :=
  let d := p / q
  let r := p % q
  if 2 * r < q then d
  else if q < 2 * r then d + 1
  else if d % 2 = 0 then d else d + 1

/-- Floor of `log2 (a / b)` for positive naturals `a`, `b` below `2 ^ 128`. -/
def flog2Rat (a b : Nat) : Int :=
  let d : Int := (natLog2 a : Int) - (natLog2 b : Int)
  if b * 2 ^ d.toNat ≤ a * 2 ^ (-d).toNat then d else d - 1

/-- `int(td.total_seconds() * 1000)` for a non-negative microsecond count `a`:
`total_seconds()` is the binary64 value nearest to `a / 10^6` (53-bit
significand `m1`, exponent `e`), the product with `1000` is rounded again to
53 bits (`m2`), and the result is truncated toward zero. -/
def floatMsMag (a : Nat) : Nat :=
  if a = 0 then 0 else
  let e := flog2Rat a 1000000
  let m1 :=
    if e ≤ 52 then rheDiv (a * 2 ^ (52 - e).toNat) 1000000
    else rheDiv a (1000000 * 2 ^ (e - 52).toNat)
  let t := m1 * 1000
  let k := natLog2 t + 1 - 53
  let m2 := rheDiv t (2 ^ k)
  let E : Int := e - 52 + k
  if 0 ≤ E then m2 * 2 ^ E.toNat else m2 / 2 ^ (-E).toNat

/-- `int(td.total_seconds() * 1000)` with sign: binary64 rounding is symmetric
under negation and Python `int()` truncates toward zero. -/
def pyTotalMs (us : Int) : Int :=
  if us < 0 then -(floatMsMag us.natAbs : Int) else (floatMsMag us.toNat : Int)

/-- The character of a decimal digit. -/
def digitChar (n : Nat) : Char := Char.ofNat ('0'.toNat + n)

/-- Decimal digits of `n`, most significant first, prepended to `acc`;
fuel bounds the number of emitted digits (64 is ample here). -/
def natToCharsAux : Nat → Nat → List Char → List Char
  | 0, _, acc => acc
  | fuel + 1, n, acc =>
    if n < 10 then digitChar n :: acc
    else natToCharsAux fuel (n / 10) (digitChar (n % 10) :: acc)

/-- Python `str(n)` for a natural number below `10 ^ 64`. -/
def natToChars (n : Nat) : List Char := natToCharsAux 64 n []

/-- Python format spec `{n:0w}` for non-negative `n`: left-pad the decimal
digits with zeros to width `w`. -/
def padZero (w n : Nat) : List Char :=
  List.replicate (w - (natToChars n).length) '0' ++ natToChars n

/-- `format_time(td)`: clamp the millisecond total at zero, then render
zero-padded `HH:MM:SS,mmm` with Python's integer `//` and `%`. -/
def format_time (us : Int) : List Char :=
  let total_ms := pyTotalMs us
  let t : Nat := if total_ms < 0 then 0 else total_ms.toNat
  padZero 2 (t / 3600000) ++ chars ":" ++ padZero 2 (t % 3600000 / 60000) ++
    chars ":" ++ padZero 2 (t % 60000 / 1000) ++ chars "," ++ padZero 3 (t % 1000)

/-- One parsed subtitle entry (the per-block dict; `Sub` itself is taken by the subtraction typeclass, so the record uses the specification name). -/
structure Caption where
  idx : List Char
  inicio : Int
  fin : Int
  texto : List Char
deriving DecidableEq, Repr

/-- The per-block branch of the parsing loop: `.ok none` when the block is
skipped (fewer than 2 lines, no `-->` on line 2, or the caught `ValueError`
when `lineas[1].split(" --> ")` does not yield exactly two parts);
`.error` when a `timedelta` construction overflows. -/
def parseBlock (b : List Char) : Except PyErr (Option Caption) :=
  match pySplit (chars "\n") b with
  | l0 :: l1 :: rest =>
    if pyContains (chars "-->") l1 then
      match pySplit (chars " --> ") l1 with
      | [t1, t2] => do
        let inicio ← parse_time (pyStrip t1)
        let fin ← parse_time (pyStrip t2)
        .ok (some { idx := pyStrip l0, inicio := inicio, fin := fin,
                    texto := pyStrip (pyJoin (chars "\n") rest) })
      | _ => .ok none
    else .ok none
  | _ => .ok none

/-- The parsing loop over blocks, in order; skipped blocks contribute
nothing, the first overflow aborts the call. -/
def parseSubs : List (List Char) → Except PyErr (List Caption)
  | [] => .ok []
  | b :: rest => do
    let s? ← parseBlock b
    let others ← parseSubs rest
    .ok (match s? with | some s => s :: others | none => others)

/-- Block segmentation: normalize line endings, strip the document, split on
blank lines, strip each block and keep the nonempty ones. -/
def bloquesOf (srt : String) : List (List Char) :=
  ((pySplit (chars "\n\n")
      (pyStrip (pyReplace (chars "\r\n") (chars "\n") (chars srt)))).map
    pyStrip).filter (fun b => !b.isEmpty)

/-- The gap-closing loop `for i in range(len(subs) - 1): subs[i].fin =
subs[i+1].inicio`.  The loop only ever writes `fin` fields and only reads
`inicio` fields, so each read sees the original `inicio`; this lets the
in-place loop be written as a one-pass recursion. -/
def gapClose : List Caption → List Caption
  | [] => []
  | [s] => [s]
  | s :: t :: rest => { s with fin := t.inicio } :: gapClose (t :: rest)

/-- `if subs: subs[-1].fin += timedelta(seconds=ext)`: both the
`timedelta(seconds=ext)` construction and the addition re-check the
timedelta range. -/
def tailExtend (subs : List Caption) (ext : Int) : Except PyErr (List Caption) :=
  match subs with
  | [] => .ok []
  | s0 :: rest => do
    let extUs ← mkTimedelta (ext * 1000000)
    let lastS := (s0 :: rest).getLast (List.cons_ne_nil s0 rest)
    let fin' ← mkTimedelta (lastS.fin + extUs)
    .ok ((s0 :: rest).dropLast ++ [{ lastS with fin := fin' }])

/-- The whole normalization stage: close gaps, then extend the tail. -/
def normalizeAll (subs : List Caption) (ext : Int) : Except PyErr (List Caption) :=
  tailExtend (gapClose subs) ext

/-- The text written for one subtitle by the rendering loop. -/
def renderSub (s : Caption) : List Char :=
  s.idx ++ chars "\n" ++ format_time s.inicio ++ chars " --> " ++
    format_time s.fin ++ chars "\n" ++ s.texto ++ chars "\n\n"

/-- The `io.StringIO` accumulation over the rendering loop. -/
def renderSubs (subs : List Caption) : List Char :=
  subs.foldl (fun acc s => acc ++ renderSub s) []

/-- The caption sequence `process_srt_content` builds and mutates before
rendering: parse all blocks, then normalize. -/
def processSubs (srt : String) (ext : Int) : Except PyErr (List Caption) := do
  let subs ← parseSubs (bloquesOf srt)
  normalizeAll subs ext

/-- `process_srt_content(srt_content, extender_ultimo_segundos)`. -/
def process_srt_content (srt_content : String) (ext : Int) : Except PyErr String := do
  let subs ← processSubs srt_content ext
  .ok (String.mk (renderSubs subs))

/-- The Python call with the default `extender_ultimo_segundos=2`. -/
def process_srt_content_default (srt_content : String) : Except PyErr String :=
  process_srt_content srt_content 2

/-- The structural condition under which the parsing loop reaches the
`parse_time` calls and keeps the block: at least two lines, the timing-arrow
token somewhere on line 2, and line 2 splitting on the padded token
`" --> "` into exactly two parts (otherwise the tuple unpacking raises the
`ValueError` that the loop catches by skipping the block). -/
def keepCond (b : List Char) : Prop :=
  match pySplit (chars "\n") b with
  | _ :: l1 :: _ =>
    pyContains (chars "-->") l1 = true ∧ (pySplit (chars " --> ") l1).length = 2
  | _ => False

/-- A caption whose two timestamps are at most `4 * 10^17` microseconds in
magnitude: far inside the timedelta range, with room for the tail addition. -/
def captionBounded (s : Caption) : Prop :=
  -400000000000000000 ≤ s.inicio ∧ s.inicio ≤ 400000000000000000 ∧
  -400000000000000000 ≤ s.fin ∧ s.fin ≤ 400000000000000000

/-- A timestamp string whose parsed components (when the field decomposition
succeeds at all) each have magnitude at most `10^8`. -/
def tsBounded (t : List Char) : Bool :=
  match timeFields (pyStrip t) with
  | none => true
  | some (h, m, s, ms) =>
    decide (-100000000 ≤ h) && decide (h ≤ 100000000) &&
    decide (-100000000 ≤ m) && decide (m ≤ 100000000) &&
    decide (-100000000 ≤ s) && decide (s ≤ 100000000) &&
    decide (-100000000 ≤ ms) && decide (ms ≤ 100000000)

/-- A block both of whose timestamp strings (if the block reaches them) are
`tsBounded`. -/
def blockBounded (b : List Char) : Bool :=
  match pySplit (chars "\n") b with
  | _ :: l1 :: _ =>
    match pySplit (chars " --> ") l1 with
    | [t1, t2] => tsBounded t1 && tsBounded t2
    | _ => true
  | _ => true

/-- Inputs whose timestamp components and tail extension are moderate
(magnitude at most `10^8`): a sufficient condition keeping every `timedelta`
construction inside its range. -/
def boundedInput (srt : String) (ext : Int) : Bool :=
  decide (-100000000 ≤ ext) && decide (ext ≤ 100000000) &&
  (bloquesOf srt).all blockBounded

/-- Left-to-right decimal evaluation of a digit string, starting from `a`. -/
def valFrom (a : Nat) (l : List Char) : Nat :=
  l.foldl (fun x c => x * 10 + (c.toNat - '0'.toNat)) a

/-- The number denoted by a decimal digit string. -/
def charsVal (l : List Char) : Nat := valFrom 0 l

/-! ### Inversion helpers -/

theorem except_bind_ok {α β : Type} {e : Except PyErr α} {f : α → Except PyErr β}
    {b : β} (h : (e >>= f) = .ok b) : ∃ a, e = .ok a ∧ f a = .ok b := by
  cases e with
  | ok a => exact ⟨a, rfl, h⟩
  | error err => cases h

theorem mkTimedelta_ok {us v : Int} (h : mkTimedelta us = .ok v) : v = us := by
  unfold mkTimedelta at h
  by_cases hc : -86399999913600000000 ≤ us ∧ us < 86400000000000000000
  · rw [if_pos hc] at h; cases h; rfl
  · rw [if_neg hc] at h; cases h

theorem mkTimedelta_ok_of_range {us : Int} (h1 : -86399999913600000000 ≤ us)
    (h2 : us < 86400000000000000000) : mkTimedelta us = .ok us := by
  unfold mkTimedelta
  rw [if_pos ⟨h1, h2⟩]

/-! ### Positional description of the gap-closing loop -/

theorem gapClose_getElem? (subs : List Caption) (i : Nat) :
    (gapClose subs)[i]? = (subs[i]?).map (fun s =>
      match subs[i + 1]? with
      | some t => { s with fin := t.inicio }
      | none => s) := by
  induction subs generalizing i with
  | nil => simp [gapClose]
  | cons s rest ih =>
    cases rest with
    | nil =>
      cases i with
      | zero => simp [gapClose]
      | succ j => simp [gapClose]
    | cons t rest' =>
      cases i with
      | zero => simp [gapClose]
      | succ j =>
        have := ih j
        simpa [gapClose] using this

theorem gapClose_length (subs : List Caption) :
    (gapClose subs).length = subs.length := by
  induction subs with
  | nil => simp [gapClose]
  | cons s rest ih =>
    cases rest with
    | nil => simp [gapClose]
    | cons t rest' => simpa [gapClose] using ih

theorem gapClose_ne_nil {subs : List Caption} (h : subs ≠ []) : gapClose subs ≠ [] := by
  cases subs with
  | nil => exact absurd rfl h
  | cons s rest => cases rest with
    | nil => simp [gapClose]
    | cons t rest' => simp [gapClose]

/-! ### Shape of the tail-extension step -/

theorem tailExtend_ok_shape {subs : List Caption} {ext : Int} {subs' : List Caption}
    (h : tailExtend subs ext = .ok subs') :
    (subs = [] ∧ subs' = []) ∨
    (∃ hne : subs ≠ [],
      subs' = subs.dropLast ++
        [{ subs.getLast hne with fin := (subs.getLast hne).fin + ext * 1000000 }]) := by
  cases subs with
  | nil =>
    left
    refine ⟨rfl, ?_⟩
    simpa [tailExtend] using h.symm
  | cons s0 rest =>
    right
    refine ⟨List.cons_ne_nil s0 rest, ?_⟩
    unfold tailExtend at h
    obtain ⟨v1, hv1, h⟩ := except_bind_ok h
    obtain ⟨v2, hv2, h⟩ := except_bind_ok h
    have e1 := mkTimedelta_ok hv1
    have e2 := mkTimedelta_ok hv2
    cases h
    rw [e2, e1]

/-! ### Positional description of the whole normalization stage -/

theorem normalizeAll_length {subs : List Caption} {ext : Int} {subs' : List Caption}
    (h : normalizeAll subs ext = .ok subs') : subs'.length = subs.length := by
  unfold normalizeAll at h
  have hglen := gapClose_length subs
  rcases tailExtend_ok_shape h with ⟨hg, hs⟩ | ⟨hne, hs⟩
  · rw [hg] at hglen
    simp only [List.length_nil] at hglen
    rw [hs]
    simp only [List.length_nil]
    omega
  · rw [hs]
    have hgpos : 0 < (gapClose subs).length := List.length_pos.mpr hne
    simp only [List.length_append, List.length_dropLast, List.length_cons,
      List.length_nil]
    omega

theorem normalizeAll_getElem?_mid {subs : List Caption} {ext : Int}
    {subs' : List Caption} (h : normalizeAll subs ext = .ok subs') (i : Nat)
    (hi : i + 1 < subs.length) :
    ∃ s t, subs[i]? = some s ∧ subs[i + 1]? = some t ∧
      subs'[i]? = some { s with fin := t.inicio } := by
  unfold normalizeAll at h
  have hglen := gapClose_length subs
  rcases tailExtend_ok_shape h with ⟨hg, _⟩ | ⟨hne, hs⟩
  · rw [hg] at hglen
    simp only [List.length_nil] at hglen
    omega
  · have hslem : subs[i]? = some subs[i] := List.getElem?_eq_getElem (by omega)
    have htlem : subs[i + 1]? = some subs[i + 1] := List.getElem?_eq_getElem hi
    refine ⟨subs[i], subs[i + 1], hslem, htlem, ?_⟩
    have hgc := gapClose_getElem? subs i
    rw [hslem, htlem] at hgc
    have hdrop : ((gapClose subs).dropLast)[i]? = (gapClose subs)[i]? := by
      rw [List.dropLast_eq_take, List.getElem?_take]
      rw [if_pos (by omega)]
    rw [hs, List.getElem?_append_left (by
      simp only [List.length_dropLast]
      omega), hdrop, hgc]
    rfl

theorem normalizeAll_getElem?_last {subs : List Caption} {ext : Int}
    {subs' : List Caption} (h : normalizeAll subs ext = .ok subs')
    (hne : subs ≠ []) :
    ∃ s, subs[subs.length - 1]? = some s ∧
      subs'[subs.length - 1]? = some { s with fin := s.fin + ext * 1000000 } := by
  unfold normalizeAll at h
  have hglen := gapClose_length subs
  have hlpos : 0 < subs.length := List.length_pos.mpr hne
  rcases tailExtend_ok_shape h with ⟨hg, _⟩ | ⟨hgne, hs⟩
  · rw [hg] at hglen
    simp only [List.length_nil] at hglen
    omega
  · have hslem : subs[subs.length - 1]? = some subs[subs.length - 1] :=
      List.getElem?_eq_getElem (by omega)
    refine ⟨subs[subs.length - 1], hslem, ?_⟩
    have hlast : (gapClose subs).getLast hgne = subs[subs.length - 1] := by
      have h1 : (gapClose subs).getLast? = some ((gapClose subs).getLast hgne) :=
        List.getLast?_eq_getLast _ hgne
      have h2 := List.getLast?_eq_getElem? (gapClose subs)
      have hgc := gapClose_getElem? subs (subs.length - 1)
      have hnone : subs[(subs.length - 1) + 1]? = none := by
        rw [List.getElem?_eq_none]
        omega
      rw [hslem, hnone] at hgc
      rw [h1, hglen, hgc] at h2
      simpa using h2
    rw [hs, List.getElem?_append_right (by
      simp only [List.length_dropLast]
      omega)]
    simp only [List.length_dropLast, hglen, hlast]
    have hz : subs.length - 1 - (subs.length - 1) = 0 := by omega
    rw [hz]
    rfl

/-! ### Rendering is a concatenation in list order -/

theorem renderSubs_foldl (acc : List Char) (l : List Caption) :
    List.foldl (fun acc s => acc ++ renderSub s) acc l =
      acc ++ (l.map renderSub).flatten := by
  induction l generalizing acc with
  | nil => simp
  | cons s rest ih =>
    simp only [List.foldl_cons, List.map_cons, List.flatten_cons, ih,
      List.append_assoc]

theorem renderSubs_eq_flatten (l : List Caption) :
    renderSubs l = (l.map renderSub).flatten := by
  unfold renderSubs
  rw [renderSubs_foldl]
  simp

/-! ### Claim theorems -/

/-- Claim C1: in the caption sequence produced by `process_srt_content`,
every adjacent pair satisfies `fin = inicio` of the next caption exactly, so
the rendered end timestamp of a caption equals the rendered start timestamp
of its successor. -/
theorem C1_adjacent_ends_meet {srt : String} {ext : Int} {subs' : List Caption}
    (h : processSubs srt ext = .ok subs') (i : Nat) (hi : i + 1 < subs'.length) :
    ∃ a b, subs'[i]? = some a ∧ subs'[i + 1]? = some b ∧
      a.fin = b.inicio ∧ format_time a.fin = format_time b.inicio := by
  unfold processSubs at h
  obtain ⟨subs, hp, hn⟩ := except_bind_ok h
  have hlen := normalizeAll_length hn
  rw [hlen] at hi
  obtain ⟨s, t, hsi, hti, ha⟩ := normalizeAll_getElem?_mid hn i hi
  by_cases hmid : i + 1 + 1 < subs.length
  · obtain ⟨s2, t2, hs2, ht2, hb⟩ := normalizeAll_getElem?_mid hn (i + 1) hmid
    refine ⟨_, _, ha, hb, ?_, ?_⟩
    · rw [hti] at hs2
      cases hs2
      rfl
    · rw [hti] at hs2
      cases hs2
      rfl
  · have hne : subs ≠ [] := by
      intro hempty
      rw [hempty] at hi
      simp at hi
    obtain ⟨s2, hs2, hb⟩ := normalizeAll_getElem?_last hn hne
    have hidx : subs.length - 1 = i + 1 := by omega
    rw [hidx] at hs2 hb
    refine ⟨_, _, ha, hb, ?_, ?_⟩
    · rw [hti] at hs2
      cases hs2
      rfl
    · rw [hti] at hs2
      cases hs2
      rfl

/-- Claim C5: for a non-empty parsed sequence, the last caption's end after
normalization equals its originally parsed end plus the tail extension (the
gap-closing loop never touches the last caption); an empty parsed sequence is
a no-op, and a single caption receives only the tail extension. -/
theorem C5_tail_extension_adds {srt : String} {ext : Int}
    {subs subs' : List Caption}
    (_hp : parseSubs (bloquesOf srt) = .ok subs)
    (hn : normalizeAll subs ext = .ok subs') :
    (subs = [] → subs' = []) ∧
    (subs ≠ [] → ∃ a b, subs.getLast? = some a ∧ subs'.getLast? = some b ∧
      b.fin = a.fin + ext * 1000000 ∧ b.idx = a.idx ∧ b.inicio = a.inicio ∧
      b.texto = a.texto) := by
  constructor
  · intro hempty
    rw [hempty] at hn
    unfold normalizeAll gapClose tailExtend at hn
    cases hn
    rfl
  · intro hne
    obtain ⟨s, hs, hb⟩ := normalizeAll_getElem?_last hn hne
    have hlen := normalizeAll_length hn
    have hne' : subs' ≠ [] := by
      intro hc
      rw [hc] at hlen
      simp only [List.length_nil] at hlen
      exact hne (List.eq_nil_of_length_eq_zero hlen.symm)
    refine ⟨s, { s with fin := s.fin + ext * 1000000 }, ?_, ?_, rfl, rfl, rfl, rfl⟩
    · rw [List.getLast?_eq_getElem?, hs]
    · rw [List.getLast?_eq_getElem?, hlen, hb]

/-- Claim C10: the normalization stage changes only `fin` fields: it keeps
the length, and every caption's `idx`, `inicio` and `texto`, position by
position; rendering then emits the captions by concatenation in list order
(no re-sorting). -/
theorem C10_normalize_frame {subs : List Caption} {ext : Int}
    {subs' : List Caption} (h : normalizeAll subs ext = .ok subs') :
    subs'.length = subs.length ∧
    (∀ i : Nat, (subs'[i]?).map Caption.idx = (subs[i]?).map Caption.idx ∧
          (subs'[i]?).map Caption.inicio = (subs[i]?).map Caption.inicio ∧
          (subs'[i]?).map Caption.texto = (subs[i]?).map Caption.texto) ∧
    renderSubs subs' = (subs'.map renderSub).flatten := by
  have hlen := normalizeAll_length h
  refine ⟨hlen, ?_, renderSubs_eq_flatten subs'⟩
  intro i
  by_cases hout : subs.length ≤ i
  · have h1 : subs'[i]? = none := by
      rw [List.getElem?_eq_none]
      omega
    have h2 : subs[i]? = none := by
      rw [List.getElem?_eq_none]
      omega
    rw [h1, h2]
    exact ⟨rfl, rfl, rfl⟩
  · by_cases hmid : i + 1 < subs.length
    · obtain ⟨s, t, hs, ht, hb⟩ := normalizeAll_getElem?_mid h i hmid
      rw [hs, hb]
      exact ⟨rfl, rfl, rfl⟩
    · have hne : subs ≠ [] := by
        intro hc
        rw [hc] at hout
        simp at hout
      have hidx : subs.length - 1 = i := by omega
      obtain ⟨s, hs, hb⟩ := normalizeAll_getElem?_last h hne
      rw [hidx] at hs hb
      rw [hs, hb]
      exact ⟨rfl, rfl, rfl⟩

/-- Witness for C1: the specification's two-caption scenario, at the first
adjacent pair. -/
theorem C1_adjacent_ends_meet_witness :
    ∃ a b, ([⟨chars "1", 1000000, 5000000, chars "Hello"⟩,
             ⟨chars "2", 5000000, 8000000, chars "World"⟩] : List Caption)[0]? = some a ∧
      ([⟨chars "1", 1000000, 5000000, chars "Hello"⟩,
        ⟨chars "2", 5000000, 8000000, chars "World"⟩] : List Caption)[0 + 1]? = some b ∧
      a.fin = b.inicio ∧ format_time a.fin = format_time b.inicio :=
  @C1_adjacent_ends_meet
    "1\n00:00:01,000 --> 00:00:02,000\nHello\n\n2\n00:00:05,000 --> 00:00:06,000\nWorld\n\n" 2
    [⟨chars "1", 1000000, 5000000, chars "Hello"⟩,
     ⟨chars "2", 5000000, 8000000, chars "World"⟩] (by decide) 0 (by decide)

/-- Witness for C5: a single caption receives exactly the 2-second tail
extension on its original end. -/
theorem C5_tail_extension_adds_witness :
    (([⟨chars "1", 1000000, 2000000, chars "A"⟩] : List Caption) = [] →
      ([⟨chars "1", 1000000, 4000000, chars "A"⟩] : List Caption) = []) ∧
    (([⟨chars "1", 1000000, 2000000, chars "A"⟩] : List Caption) ≠ [] →
      ∃ a b, ([⟨chars "1", 1000000, 2000000, chars "A"⟩] : List Caption).getLast? = some a ∧
        ([⟨chars "1", 1000000, 4000000, chars "A"⟩] : List Caption).getLast? = some b ∧
        b.fin = a.fin + 2 * 1000000 ∧ b.idx = a.idx ∧ b.inicio = a.inicio ∧
        b.texto = a.texto) :=
  @C5_tail_extension_adds "1\n00:00:01,000 --> 00:00:02,000\nA" 2
    [⟨chars "1", 1000000, 2000000, chars "A"⟩]
    [⟨chars "1", 1000000, 4000000, chars "A"⟩] (by decide) (by decide)

/-- Witness for C10: captions whose source timestamps are out of order are
normalized in place, with index, start and text untouched, and no re-sorting. -/
theorem C10_normalize_frame_witness :
    ([⟨chars "2", 9000000, 1000000, chars "B"⟩,
      ⟨chars "1", 1000000, 4000000, chars "A"⟩] : List Caption).length =
      ([⟨chars "2", 9000000, 10000000, chars "B"⟩,
        ⟨chars "1", 1000000, 2000000, chars "A"⟩] : List Caption).length ∧
    (∀ i : Nat,
      (([⟨chars "2", 9000000, 1000000, chars "B"⟩,
         ⟨chars "1", 1000000, 4000000, chars "A"⟩] : List Caption)[i]?).map Caption.idx =
        (([⟨chars "2", 9000000, 10000000, chars "B"⟩,
           ⟨chars "1", 1000000, 2000000, chars "A"⟩] : List Caption)[i]?).map Caption.idx ∧
      (([⟨chars "2", 9000000, 1000000, chars "B"⟩,
         ⟨chars "1", 1000000, 4000000, chars "A"⟩] : List Caption)[i]?).map Caption.inicio =
        (([⟨chars "2", 9000000, 10000000, chars "B"⟩,
           ⟨chars "1", 1000000, 2000000, chars "A"⟩] : List Caption)[i]?).map Caption.inicio ∧
      (([⟨chars "2", 9000000, 1000000, chars "B"⟩,
         ⟨chars "1", 1000000, 4000000, chars "A"⟩] : List Caption)[i]?).map Caption.texto =
        (([⟨chars "2", 9000000, 10000000, chars "B"⟩,
           ⟨chars "1", 1000000, 2000000, chars "A"⟩] : List Caption)[i]?).map Caption.texto) ∧
    renderSubs [⟨chars "2", 9000000, 1000000, chars "B"⟩,
                ⟨chars "1", 1000000, 4000000, chars "A"⟩] =
      (([⟨chars "2", 9000000, 1000000, chars "B"⟩,
         ⟨chars "1", 1000000, 4000000, chars "A"⟩] : List Caption).map renderSub).flatten :=
  @C10_normalize_frame
    [⟨chars "2", 9000000, 10000000, chars "B"⟩, ⟨chars "1", 1000000, 2000000, chars "A"⟩] 2
    [⟨chars "2", 9000000, 1000000, chars "B"⟩, ⟨chars "1", 1000000, 4000000, chars "A"⟩]
    (by decide)

/-! ### Reduction lemmas for Except binds -/

theorem ok_bind {α β : Type} (a : α) (f : α → Except PyErr β) :
    (Except.ok a >>= f) = f a := rfl

theorem error_bind {α β : Type} (e : PyErr) (f : α → Except PyErr β) :
    ((Except.error e : Except PyErr α) >>= f) = .error e := rfl

/-- Claim C4 (amended): a candidate block is dropped if and only if it fails
the structural keep condition: at least 2 lines, `-->` somewhere on line 2,
and line 2 splitting on the padded `" --> "` into exactly two parts.  A line
that contains `-->` but does not split into exactly two parts on `" --> "`
is dropped, not kept. -/
theorem C4_block_drop_iff (b : List Char) :
    parseBlock b = .ok none ↔ ¬ keepCond b := by
  unfold parseBlock keepCond
  cases hsp : pySplit (chars "\n") b with
  | nil => simp
  | cons l0 rest0 =>
    cases rest0 with
    | nil => simp
    | cons l1 rest =>
      cases hc : pyContains (chars "-->") l1 with
      | false => simp [hc]
      | true =>
        simp only [hc, if_true]
        cases hsplit : pySplit (chars " --> ") l1 with
        | nil => simp
        | cons t1 rest1 =>
          cases rest1 with
          | nil => simp
          | cons t2 rest2 =>
            cases rest2 with
            | nil =>
              simp only [List.length_cons, List.length_nil]
              cases hp1 : parse_time (pyStrip t1) with
              | error e => simp [hp1, error_bind]
              | ok v1 =>
                cases hp2 : parse_time (pyStrip t2) with
                | error e => simp [hp1, hp2, ok_bind, error_bind]
                | ok v2 => simp [hp1, hp2, ok_bind]
            | cons t3 rest3 => simp

/-- Counterexample to C4 as stated: this block has 3 lines and its second
line contains `-->`, yet the block is dropped (the whole output is empty),
because the second line does not contain the padded token `" --> "` and the
tuple unpacking of `split(" --> ")` raises the caught `ValueError`. -/
theorem C4_arrow_without_padding_dropped :
    (pySplit (chars "\n") (chars "1\n00:00:01,000-->00:00:02,000\nA"))[1]? =
      some (chars "00:00:01,000-->00:00:02,000") ∧
    pyContains (chars "-->") (chars "00:00:01,000-->00:00:02,000") = true ∧
    process_srt_content "1\n00:00:01,000-->00:00:02,000\nA" 2 = .ok "" := by
  decide

/-- Claim C6: a kept block whose timestamp fails at field level (wrong field
count or a non-numeric component, so the decomposition yields `none`) is not
aborted: the offending timestamp parses to the zero duration, the block stays
in the output, and the zero duration renders as `00:00:00,000`. -/
theorem C6_field_failure_zero_substitution {b l0 l1 : List Char}
    {rest : List (List Char)} {t1 t2 : List Char} {v : Int}
    (hsp : pySplit (chars "\n") b = l0 :: l1 :: rest)
    (hc : pyContains (chars "-->") l1 = true)
    (hsplit : pySplit (chars " --> ") l1 = [t1, t2])
    (hmal : timeFields (pyStrip t1) = none)
    (ht2 : parse_time (pyStrip t2) = .ok v) :
    parse_time (pyStrip t1) = .ok 0 ∧
    parseBlock b = .ok (some ⟨pyStrip l0, 0, v, pyStrip (pyJoin (chars "\n") rest)⟩) ∧
    format_time 0 = chars "00:00:00,000" := by
  have hz : parse_time (pyStrip t1) = .ok 0 := by
    unfold parse_time
    rw [hmal]
  refine ⟨hz, ?_, by decide⟩
  unfold parseBlock
  rw [hsp]
  simp only [hc, if_true, hsplit, hz, ht2, ok_bind]

/-- Witness for C6: the specification's malformed-start scenario block. -/
theorem C6_field_failure_zero_substitution_witness :
    parse_time (pyStrip (chars "00:0x:01,000")) = .ok 0 ∧
    parseBlock (chars "4\n00:0x:01,000 --> 00:00:02,000\nBad") =
      .ok (some ⟨pyStrip (chars "4"), 0, 2000000,
                 pyStrip (pyJoin (chars "\n") [chars "Bad"])⟩) ∧
    format_time 0 = chars "00:00:00,000" :=
  @C6_field_failure_zero_substitution
    (chars "4\n00:0x:01,000 --> 00:00:02,000\nBad") (chars "4")
    (chars "00:0x:01,000 --> 00:00:02,000") [chars "Bad"]
    (chars "00:0x:01,000") (chars "00:00:02,000") 2000000
    (by decide) (by decide) (by decide) (by decide) (by decide)

theorem parse_time_ok_of_tsBounded {t : List Char} (hb : tsBounded t = true) :
    ∃ v : Int, parse_time (pyStrip t) = .ok v ∧
      -400000000000000000 ≤ v ∧ v ≤ 400000000000000000 := by
  unfold tsBounded at hb
  unfold parse_time
  cases hmal : timeFields (pyStrip t) with
  | none =>
    exact ⟨0, rfl, by omega, by omega⟩
  | some quad =>
    obtain ⟨h, m, s, ms⟩ := quad
    rw [hmal] at hb
    simp only [Bool.and_eq_true, decide_eq_true_eq] at hb
    obtain ⟨⟨⟨⟨⟨⟨⟨hb1, hb2⟩, hb3⟩, hb4⟩, hb5⟩, hb6⟩, hb7⟩, hb8⟩ := hb
    refine ⟨(h * 3600 + m * 60 + s) * 1000000 + ms * 1000, ?_, by nlinarith, by nlinarith⟩
    exact mkTimedelta_ok_of_range (by nlinarith) (by nlinarith)

theorem parseBlock_of_blockBounded {b : List Char} (hb : blockBounded b = true) :
    parseBlock b = .ok none ∨
      ∃ s, parseBlock b = .ok (some s) ∧ captionBounded s := by
  unfold blockBounded at hb
  unfold parseBlock
  cases hsp : pySplit (chars "\n") b with
  | nil => exact Or.inl rfl
  | cons l0 rest0 =>
    cases rest0 with
    | nil => exact Or.inl rfl
    | cons l1 rest =>
      rw [hsp] at hb
      replace hb : (match pySplit (chars " --> ") l1 with
        | [t1, t2] => tsBounded t1 && tsBounded t2
        | _ => true) = true := hb
      cases hc : pyContains (chars "-->") l1 with
      | false => simp [hc]
      | true =>
        simp only [hc, if_true]
        cases hsplit : pySplit (chars " --> ") l1 with
        | nil => exact Or.inl rfl
        | cons t1 rest1 =>
          cases rest1 with
          | nil => exact Or.inl rfl
          | cons t2 rest2 =>
            cases rest2 with
            | nil =>
              rw [hsplit] at hb
              replace hb : (tsBounded t1 && tsBounded t2) = true := hb
              simp only [Bool.and_eq_true] at hb
              obtain ⟨hv1, hp1, hlo1, hhi1⟩ := parse_time_ok_of_tsBounded hb.1
              obtain ⟨hv2, hp2, hlo2, hhi2⟩ := parse_time_ok_of_tsBounded hb.2
              dsimp only
              rw [hp1, ok_bind, hp2, ok_bind]
              exact Or.inr ⟨_, rfl, hlo1, hhi1, hlo2, hhi2⟩
            | cons t3 rest3 => exact Or.inl rfl

theorem parseSubs_of_bounded :
    ∀ bl : List (List Char), (∀ b ∈ bl, blockBounded b = true) →
      ∃ subs, parseSubs bl = .ok subs ∧ ∀ s ∈ subs, captionBounded s := by
  intro bl
  induction bl with
  | nil => exact fun _ => ⟨[], rfl, by simp⟩
  | cons b rest ih =>
    intro hall
    obtain ⟨others, hrest, hmem⟩ := ih (fun x hx => hall x (List.mem_cons_of_mem b hx))
    rcases parseBlock_of_blockBounded (hall b (List.mem_cons_self b rest)) with hnone | ⟨s, hsome, hsb⟩
    · refine ⟨others, ?_, hmem⟩
      unfold parseSubs
      rw [hnone, ok_bind, hrest, ok_bind]
    · refine ⟨s :: others, ?_, ?_⟩
      · unfold parseSubs
        rw [hsome, ok_bind, hrest, ok_bind]
      · intro x hx
        rcases List.mem_cons.mp hx with hx | hx
        · rw [hx]; exact hsb
        · exact hmem x hx

theorem gapClose_bounded {subs : List Caption}
    (hall : ∀ s ∈ subs, captionBounded s) :
    ∀ s' ∈ gapClose subs, captionBounded s' := by
  induction subs with
  | nil => simp [gapClose]
  | cons s rest ih =>
    cases rest with
    | nil =>
      simpa [gapClose] using hall
    | cons t rest' =>
      intro x hx
      rw [gapClose] at hx
      rcases List.mem_cons.mp hx with hx | hx
      · have hs := hall s (by simp)
        have ht := hall t (by simp)
        rw [hx]
        exact ⟨hs.1, hs.2.1, ht.1, ht.2.1⟩
      · exact ih (fun y hy => hall y (List.mem_cons_of_mem s hy)) x hx

theorem tailExtend_ok_of_bounded {subs : List Caption} {ext : Int}
    (hall : ∀ s ∈ subs, captionBounded s)
    (hlo : -100000000 ≤ ext) (hhi : ext ≤ 100000000) :
    ∃ subs', tailExtend subs ext = .ok subs' := by
  cases subs with
  | nil => exact ⟨[], rfl⟩
  | cons s0 rest =>
    have hlast := hall ((s0 :: rest).getLast (List.cons_ne_nil s0 rest))
      (List.getLast_mem (List.cons_ne_nil s0 rest))
    have hmk1 : mkTimedelta (ext * 1000000) = .ok (ext * 1000000) :=
      mkTimedelta_ok_of_range (by nlinarith) (by nlinarith)
    have hmk2 : mkTimedelta (((s0 :: rest).getLast (List.cons_ne_nil s0 rest)).fin +
        ext * 1000000) = .ok (((s0 :: rest).getLast (List.cons_ne_nil s0 rest)).fin +
          ext * 1000000) := by
      obtain ⟨_, _, hf1, hf2⟩ := hlast
      exact mkTimedelta_ok_of_range (by nlinarith) (by nlinarith)
    refine ⟨(s0 :: rest).dropLast ++
      [{ (s0 :: rest).getLast (List.cons_ne_nil s0 rest) with
          fin := ((s0 :: rest).getLast (List.cons_ne_nil s0 rest)).fin +
            ext * 1000000 }], ?_⟩
    unfold tailExtend
    dsimp only
    rw [hmk1, ok_bind, hmk2, ok_bind]

theorem process_ok_of_bounded {srt : String} {ext : Int}
    (h : boundedInput srt ext = true) :
    ∃ out, process_srt_content srt ext = .ok out := by
  unfold boundedInput at h
  simp only [Bool.and_eq_true, decide_eq_true_eq, List.all_eq_true] at h
  obtain ⟨⟨hlo, hhi⟩, hblocks⟩ := h
  obtain ⟨subs, hsubs, hmem⟩ := parseSubs_of_bounded (bloquesOf srt) hblocks
  obtain ⟨subs', hext⟩ :=
    tailExtend_ok_of_bounded (gapClose_bounded hmem) hlo hhi
  refine ⟨String.mk (renderSubs subs'), ?_⟩
  unfold process_srt_content processSubs normalizeAll
  rw [hsubs]
  show (Except.ok subs >>= fun subs => tailExtend (gapClose subs) ext) >>=
    (fun subs => Except.ok (String.mk (renderSubs subs))) = _
  rw [ok_bind, hext, ok_bind]

/-- Counterexample to C3 as stated: a block whose hour component is a huge
integer makes `timedelta(hours=...)` raise `OverflowError`, which the
`except ValueError` handlers do not catch, so `process_srt_content` raises
instead of returning a string. -/
theorem C3_overflow_escapes :
    process_srt_content "1\n999999999999:00:00,000 --> 00:00:01,000\nX" 2 =
      .error .overflow := by
  decide

/-- Claim C3 (amended): `process_srt_content` terminates with a string for
every input whose timestamp components and tail extension have magnitude at
most `10^8` (comfortably inside the timedelta range); only components large
enough to overflow the timedelta day range escape as an error. -/
theorem C3_no_error_when_bounded {srt : String} {ext : Int}
    (h : boundedInput srt ext = true) :
    ∃ out, process_srt_content srt ext = .ok out :=
  process_ok_of_bounded h

/-- Witness for C3 (amended) at an ordinary bounded input. -/
theorem C3_no_error_when_bounded_witness :
    ∃ out, process_srt_content "1\n00:00:01,000 --> 00:00:02,000\nA" 2 = .ok out :=
  @C3_no_error_when_bounded "1\n00:00:01,000 --> 00:00:02,000\nA" 2 (by decide)

/-- Counterexample to C7 as stated: a negative tail extension (here `-5`
seconds) is silently accepted — the call returns a rendered string, moving
the single caption's end before its start, instead of raising. -/
theorem C7_negative_extension_accepted :
    process_srt_content "1\n00:00:05,000 --> 00:00:06,000\nA" (-5) =
      .ok "1\n00:00:05,000 --> 00:00:01,000\nA\n\n" := by
  decide

/-- Claim C7 (amended): the core performs no validation of the tail
extension: every in-range negative extension is accepted and produces
output (no raise). -/
theorem C7_negative_extension_no_raise {srt : String} {ext : Int}
    (h : boundedInput srt ext = true) (_hneg : ext < 0) :
    ∃ out, process_srt_content srt ext = .ok out :=
  process_ok_of_bounded h

/-- Witness for C7 (amended) with extension `-1`. -/
theorem C7_negative_extension_no_raise_witness :
    ∃ out, process_srt_content "1\n00:00:03,000 --> 00:00:04,000\nB" (-1) = .ok out :=
  @C7_negative_extension_no_raise "1\n00:00:03,000 --> 00:00:04,000\nB" (-1)
    (by decide) (by decide)

/-- Claim C2 (code behavior at the failing input): parsing `00:00:01,001`
yields 1001000 microseconds, but formatting that value back renders
`00:00:01,000`: the two binary64 roundings inside
`int(td.total_seconds() * 1000)` land just below 1001 and `int()` truncates,
so formatting is not the exact inverse of parsing.  The zero cases of the
claim do hold. -/
theorem C2_roundtrip_truncates :
    parse_time (chars "00:00:01,001") = .ok 1001000 ∧
    format_time 1001000 = chars "00:00:01,000" ∧
    format_time 1001000 ≠ chars "00:00:01,001" ∧
    format_time 0 = chars "00:00:00,000" ∧
    parse_time (chars "00:00:00,000") = .ok 0 := by
  decide

set_option maxRecDepth 40000 in
/-- Claim C8 (code behavior at the failing input): this input has two
parseable captions; reprocessing the first output does add the extension to
the last caption's end again, but the two outputs also differ on the first
caption's timing line (`00:02:08,003` reparses and reformats as
`00:02:08,002` through the float truncation), so `process(process(x))`
differs from `process(x)` in more than the last caption's end. -/
theorem C8_reprocess_changes_nonlast :
    parseSubs (bloquesOf
        "1\n00:00:00,000 --> 00:01:00,000\nA\n\n2\n00:02:08,004 --> 00:03:00,000\nB") =
      .ok [⟨chars "1", 0, 60000000, chars "A"⟩,
           ⟨chars "2", 128004000, 180000000, chars "B"⟩] ∧
    process_srt_content
        "1\n00:00:00,000 --> 00:01:00,000\nA\n\n2\n00:02:08,004 --> 00:03:00,000\nB" 2 =
      .ok "1\n00:00:00,000 --> 00:02:08,003\nA\n\n2\n00:02:08,003 --> 00:03:02,000\nB\n\n" ∧
    process_srt_content
        "1\n00:00:00,000 --> 00:02:08,003\nA\n\n2\n00:02:08,003 --> 00:03:02,000\nB\n\n" 2 =
      .ok "1\n00:00:00,000 --> 00:02:08,002\nA\n\n2\n00:02:08,002 --> 00:03:04,000\nB\n\n" ∧
    (pySplit (chars "\n")
        (chars "1\n00:00:00,000 --> 00:02:08,003\nA\n\n2\n00:02:08,003 --> 00:03:02,000\nB\n\n"))[1]? ≠
      (pySplit (chars "\n")
        (chars "1\n00:00:00,000 --> 00:02:08,002\nA\n\n2\n00:02:08,002 --> 00:03:04,000\nB\n\n"))[1]? := by
  decide

theorem valFrom_append (a : Nat) (xs ys : List Char) :
    valFrom a (xs ++ ys) = valFrom (valFrom a xs) ys := by
  unfold valFrom
  exact List.foldl_append _ _ _ _

theorem valFrom_replicate_zero (a k : Nat) :
    valFrom a (List.replicate k '0') = a * 10 ^ k := by
  induction k generalizing a with
  | zero => simp [valFrom]
  | succ k ih =>
    rw [List.replicate_succ]
    show valFrom (a * 10 + ('0'.toNat - '0'.toNat)) (List.replicate k '0') = _
    rw [ih]
    simp
    ring

theorem digitChar_val {n : Nat} (h : n < 10) :
    (digitChar n).toNat - '0'.toNat = n := by
  interval_cases n <;> decide

theorem digitChar_digit {n : Nat} (h : n < 10) :
    '0' ≤ digitChar n ∧ digitChar n ≤ '9' := by
  interval_cases n <;> exact ⟨by decide, by decide⟩

theorem valFrom_cons (a : Nat) (c : Char) (l : List Char) :
    valFrom a (c :: l) = valFrom (a * 10 + (c.toNat - '0'.toNat)) l := rfl

theorem natToCharsAux_spec :
    ∀ fuel n acc, 1 ≤ fuel → n < 10 ^ fuel →
      ∃ d, 1 ≤ d ∧ n < 10 ^ d ∧ (∀ k, 1 ≤ k → n < 10 ^ k → d ≤ k) ∧
        (natToCharsAux fuel n acc).length = d + acc.length ∧
        (∀ a, valFrom a (natToCharsAux fuel n acc) = valFrom (a * 10 ^ d + n) acc) ∧
        (∀ c ∈ natToCharsAux fuel n acc, c ∈ acc ∨ ('0' ≤ c ∧ c ≤ '9')) := by
  intro fuel
  induction fuel with
  | zero => omega
  | succ fuel ih =>
    intro n acc _ hn
    by_cases hsmall : n < 10
    · have hstep0 : natToCharsAux (fuel + 1) n acc = digitChar n :: acc := by
        simp only [natToCharsAux]
        rw [if_pos hsmall]
      refine ⟨1, le_refl 1, by omega, fun k hk _ => hk, ?_, ?_, ?_⟩
      · rw [hstep0]
        simp [Nat.add_comm]
      · intro a
        rw [hstep0, valFrom_cons, digitChar_val hsmall]
        norm_num
      · intro c hc
        rw [hstep0] at hc
        rcases List.mem_cons.mp hc with hc | hc
        · exact Or.inr (hc ▸ digitChar_digit hsmall)
        · exact Or.inl hc
    · have hfuel : 1 ≤ fuel := by
        rcases Nat.eq_zero_or_pos fuel with hf | hf
        · rw [hf] at hn
          norm_num at hn
          omega
        · exact hf
      have hdiv : n / 10 < 10 ^ fuel := by
        have h10 : (10 : Nat) ^ (fuel + 1) = 10 ^ fuel * 10 := by ring
        rw [h10] at hn
        omega
      obtain ⟨d, hd1, hdlt, hdmin, hlen, hval, hdig⟩ :=
        ih (n / 10) (digitChar (n % 10) :: acc) hfuel hdiv
      have hstep : natToCharsAux (fuel + 1) n acc =
          natToCharsAux fuel (n / 10) (digitChar (n % 10) :: acc) := by
        simp only [natToCharsAux]
        rw [if_neg hsmall]
      refine ⟨d + 1, by omega, ?_, ?_, ?_, ?_, ?_⟩
      · have hp : (10 : Nat) ^ (d + 1) = 10 ^ d * 10 := by ring
        rw [hp]
        omega
      · intro k hk hklt
        rcases Nat.lt_or_ge k 2 with hk2 | hk2
        · have hk1 : k = 1 := by omega
          rw [hk1] at hklt
          norm_num at hklt
          omega
        · have hq : n / 10 < 10 ^ (k - 1) := by
            have h10 : (10 : Nat) ^ k = 10 ^ (k - 1) * 10 := by
              have hk' : k = (k - 1) + 1 := by omega
              conv_lhs => rw [hk']
              rw [Nat.pow_succ]
            rw [h10] at hklt
            omega
          have := hdmin (k - 1) (by omega) hq
          omega
      · rw [hstep, hlen]
        simp only [List.length_cons]
        omega
      · intro a
        rw [hstep, hval, valFrom_cons, digitChar_val (Nat.mod_lt n (by norm_num))]
        have harith : (a * 10 ^ d + n / 10) * 10 + n % 10 = a * 10 ^ (d + 1) + n := by
          have hmod := Nat.div_add_mod n 10
          ring_nf
          omega
        rw [harith]
      · intro c hc
        rw [hstep] at hc
        rcases hdig c hc with hc1 | hc1
        · rcases List.mem_cons.mp hc1 with hc2 | hc2
          · exact Or.inr (hc2 ▸ digitChar_digit (Nat.mod_lt n (by norm_num)))
          · exact Or.inl hc2
        · exact Or.inr hc1

theorem charsVal_natToChars {n : Nat} (h : n < 10 ^ 64) :
    charsVal (natToChars n) = n := by
  obtain ⟨d, _, _, _, _, hval, _⟩ := natToCharsAux_spec 64 n [] (by norm_num) h
  unfold charsVal natToChars
  rw [hval 0]
  simp [valFrom]

theorem natToChars_length_le {n k : Nat} (hk : 1 ≤ k) (hkk : k ≤ 64)
    (h : n < 10 ^ k) : (natToChars n).length ≤ k := by
  have h64 : n < 10 ^ 64 :=
    lt_of_lt_of_le h (Nat.pow_le_pow_right (by norm_num) hkk)
  obtain ⟨d, _, _, hdmin, hlen, _, _⟩ := natToCharsAux_spec 64 n [] (by norm_num) h64
  unfold natToChars
  rw [hlen]
  simp only [List.length_nil, Nat.add_zero]
  exact hdmin k hk h

theorem natToChars_length_ge {n : Nat} (h64 : n < 10 ^ 64) (h : 100 ≤ n) :
    3 ≤ (natToChars n).length := by
  obtain ⟨d, _, hdlt, _, hlen, _, _⟩ := natToCharsAux_spec 64 n [] (by norm_num) h64
  unfold natToChars
  rw [hlen]
  simp only [List.length_nil, Nat.add_zero]
  by_contra hc
  have hd2 : d ≤ 2 := by omega
  have : (10 : Nat) ^ d ≤ 10 ^ 2 := Nat.pow_le_pow_right (by norm_num) hd2
  omega

theorem natToChars_digits {n : Nat} (h64 : n < 10 ^ 64) :
    ∀ c ∈ natToChars n, '0' ≤ c ∧ c ≤ '9' := by
  obtain ⟨d, _, _, _, _, _, hdig⟩ := natToCharsAux_spec 64 n [] (by norm_num) h64
  intro c hc
  rcases hdig c hc with hc' | hc'
  · cases hc'
  · exact hc'

theorem length_padZero (w n : Nat) :
    (padZero w n).length = max w (natToChars n).length := by
  unfold padZero
  rw [List.length_append, List.length_replicate]
  omega

theorem charsVal_padZero {w n : Nat} (h : n < 10 ^ 64) :
    charsVal (padZero w n) = n := by
  unfold padZero charsVal
  rw [valFrom_append, valFrom_replicate_zero]
  simp only [Nat.zero_mul]
  exact charsVal_natToChars h

theorem padZero_eq_of_ge {w n : Nat} (h : w ≤ (natToChars n).length) :
    padZero w n = natToChars n := by
  unfold padZero
  rw [Nat.sub_eq_zero_of_le h]
  simp

theorem padZero_digits {w n : Nat} (h64 : n < 10 ^ 64) :
    ∀ c ∈ padZero w n, '0' ≤ c ∧ c ≤ '9' := by
  intro c hc
  unfold padZero at hc
  rcases List.mem_append.mp hc with hc' | hc'
  · have := List.eq_of_mem_replicate hc'
    rw [this]
    exact ⟨le_refl _, by decide⟩
  · exact natToChars_digits h64 c hc'

theorem log2fuel_le_fuel : ∀ fuel n, log2fuel fuel n ≤ fuel := by
  intro fuel
  induction fuel with
  | zero => intro n; rw [log2fuel]
  | succ fuel ih =>
    intro n
    rw [log2fuel]
    split_ifs with h
    · omega
    · have := ih (n / 2)
      omega

theorem log2fuel_lt : ∀ fuel n j, 1 ≤ j → n < 2 ^ j → log2fuel fuel n < j := by
  intro fuel
  induction fuel with
  | zero => intro n j hj _; rw [log2fuel]; omega
  | succ fuel ih =>
    intro n j hj hn
    rw [log2fuel]
    split_ifs with h
    · omega
    · have hj2 : 2 ≤ j := by
        by_contra hc
        have hj1 : j = 1 := by omega
        rw [hj1] at hn
        norm_num at hn
        omega
      have hdiv : n / 2 < 2 ^ (j - 1) := by
        have h2 : (2 : Nat) ^ j = 2 ^ (j - 1) * 2 := by
          have hj' : j = (j - 1) + 1 := by omega
          conv_lhs => rw [hj']
          rw [Nat.pow_succ]
        rw [h2] at hn
        omega
      have := ih (n / 2) (j - 1) (by omega) hdiv
      omega

theorem rheDiv_le (p q : Nat) : rheDiv p q ≤ p / q + 1 := by
  simp only [rheDiv]
  split_ifs <;> omega

theorem natLog2_million : natLog2 1000000 = 19 := by decide

theorem flog2Rat_million_bounds {a : Nat}
    (ha : a < 147573952589676412928) :
    -20 ≤ flog2Rat a 1000000 ∧ flog2Rat a 1000000 ≤ 47 := by
  have hlt : natLog2 a < 67 :=
    log2fuel_lt 128 a 67 (by norm_num) (by norm_num; omega)
  simp only [flog2Rat, natLog2_million]
  split_ifs <;> omega

theorem floatMsMag_lt {a : Nat} (ha : a < 147573952589676412928) :
    floatMsMag a < 10 ^ 61 := by
  by_cases h0 : a = 0
  · simp [floatMsMag, h0]
  · simp only [floatMsMag, if_neg h0]
    obtain ⟨helb, heub⟩ := flog2Rat_million_bounds ha
    generalize hgen : flog2Rat a 1000000 = e
    rw [hgen] at helb heub
    rw [if_pos (by omega : e ≤ 52)]
    have hm1 : rheDiv (a * 2 ^ (52 - e).toNat) 1000000 ≤ 2 ^ 120 := by
      have hshift : (52 - e).toNat ≤ 72 := by omega
      have hp : (2 : Nat) ^ (52 - e).toNat ≤ 2 ^ 72 :=
        Nat.pow_le_pow_right (by norm_num) hshift
      have hprod : a * 2 ^ (52 - e).toNat ≤ 2 ^ 139 := by
        calc a * 2 ^ (52 - e).toNat ≤ 147573952589676412928 * 2 ^ 72 :=
              Nat.mul_le_mul (by omega) hp
          _ ≤ 2 ^ 139 := by norm_num
      have hdiv : a * 2 ^ (52 - e).toNat / 1000000 ≤ 2 ^ 139 / 1000000 :=
        Nat.div_le_div_right hprod
      calc rheDiv (a * 2 ^ (52 - e).toNat) 1000000 ≤
            a * 2 ^ (52 - e).toNat / 1000000 + 1 := rheDiv_le _ _
        _ ≤ 2 ^ 139 / 1000000 + 1 := by omega
        _ ≤ 2 ^ 120 := by norm_num
    generalize hm1g : rheDiv (a * 2 ^ (52 - e).toNat) 1000000 = m1
    rw [hm1g] at hm1
    have hkb : natLog2 (m1 * 1000) + 1 - 53 ≤ 76 := by
      have := log2fuel_le_fuel 128 (m1 * 1000)
      simp only [natLog2]
      omega
    generalize hkg : natLog2 (m1 * 1000) + 1 - 53 = k
    rw [hkg] at hkb
    have hm2 : rheDiv (m1 * 1000) (2 ^ k) ≤ 2 ^ 130 + 1 := by
      have hds := Nat.div_le_self (m1 * 1000) (2 ^ k)
      have htb : m1 * 1000 ≤ 2 ^ 130 := by
        calc m1 * 1000 ≤ 2 ^ 120 * 1000 := Nat.mul_le_mul_right 1000 hm1
          _ ≤ 2 ^ 130 := by norm_num
      calc rheDiv (m1 * 1000) (2 ^ k) ≤ m1 * 1000 / 2 ^ k + 1 := rheDiv_le _ _
        _ ≤ 2 ^ 130 + 1 := by omega
    generalize hm2g : rheDiv (m1 * 1000) (2 ^ k) = m2
    rw [hm2g] at hm2
    split_ifs with hE
    · have hEub : ((e : Int) - 52 + k).toNat ≤ 71 := by omega
      calc m2 * 2 ^ ((e : Int) - 52 + k).toNat ≤ (2 ^ 130 + 1) * 2 ^ 71 :=
            Nat.mul_le_mul hm2 (Nat.pow_le_pow_right (by norm_num) hEub)
        _ < 10 ^ 61 := by norm_num
    · calc m2 / 2 ^ (-((e : Int) - 52 + k)).toNat ≤ m2 := Nat.div_le_self _ _
        _ < 10 ^ 61 := by omega

theorem pad_not_dash {w n : Nat} (h64 : n < 10 ^ 64) : '-' ∉ padZero w n := by
  intro hc
  exact absurd (padZero_digits h64 '-' hc).1 (by decide)

theorem format_fields {T : Nat} (hT : T < 10 ^ 61) :
    2 ≤ (padZero 2 (T / 3600000)).length ∧
    charsVal (padZero 2 (T / 3600000)) = T / 3600000 ∧
    (99 < T / 3600000 →
      padZero 2 (T / 3600000) = natToChars (T / 3600000) ∧
      3 ≤ (padZero 2 (T / 3600000)).length) ∧
    T % 3600000 / 60000 < 60 ∧ (padZero 2 (T % 3600000 / 60000)).length = 2 ∧
    T % 60000 / 1000 < 60 ∧ (padZero 2 (T % 60000 / 1000)).length = 2 ∧
    T % 1000 < 1000 ∧ (padZero 3 (T % 1000)).length = 3 := by
  have hp : (10 : Nat) ^ 61 < 10 ^ 64 := by norm_num
  have hH64 : T / 3600000 < 10 ^ 64 := by omega
  have hm60 : T % 3600000 / 60000 < 60 := by omega
  have hs60 : T % 60000 / 1000 < 60 := by omega
  have hms : T % 1000 < 1000 := by omega
  have h100 : (10 : Nat) ^ 2 = 100 := by norm_num
  have h1000 : (10 : Nat) ^ 3 = 1000 := by norm_num
  refine ⟨?_, charsVal_padZero hH64, ?_, hm60, ?_, hs60, ?_, hms, ?_⟩
  · rw [length_padZero]
    omega
  · intro hbig
    have hge := natToChars_length_ge hH64 (by omega)
    refine ⟨padZero_eq_of_ge (by omega), ?_⟩
    rw [length_padZero]
    omega
  · rw [length_padZero]
    have := @natToChars_length_le (T % 3600000 / 60000) 2 (by norm_num)
      (by norm_num) (by rw [h100]; omega)
    omega
  · rw [length_padZero]
    have := @natToChars_length_le (T % 60000 / 1000) 2 (by norm_num)
      (by norm_num) (by rw [h100]; omega)
    omega
  · rw [length_padZero]
    have := @natToChars_length_le (T % 1000) 3 (by norm_num)
      (by norm_num) (by rw [h1000]; omega)
    omega

/-- Claim C9: `format_time` renders every in-range duration as zero-padded
`HH:MM:SS,mmm`: hours, minutes and seconds at least 2 digits each (minutes and
seconds exactly 2, hours above 99 printing their full decimal form without
truncation), milliseconds exactly 3 digits, and every negative total duration
clamped to zero before formatting, so no rendered timestamp is negative. -/
theorem C9_format_shape (us : Int)
    (h1 : -86399999913600000000 ≤ us) (h2 : us < 86400000000000000000) :
    ∃ t : Nat,
      format_time us =
        padZero 2 (t / 3600000) ++ chars ":" ++ padZero 2 (t % 3600000 / 60000) ++
          chars ":" ++ padZero 2 (t % 60000 / 1000) ++ chars "," ++
          padZero 3 (t % 1000) ∧
      (us < 0 → t = 0 ∧ format_time us = chars "00:00:00,000") ∧
      2 ≤ (padZero 2 (t / 3600000)).length ∧
      charsVal (padZero 2 (t / 3600000)) = t / 3600000 ∧
      (99 < t / 3600000 →
        padZero 2 (t / 3600000) = natToChars (t / 3600000) ∧
        3 ≤ (padZero 2 (t / 3600000)).length) ∧
      t % 3600000 / 60000 < 60 ∧ (padZero 2 (t % 3600000 / 60000)).length = 2 ∧
      t % 60000 / 1000 < 60 ∧ (padZero 2 (t % 60000 / 1000)).length = 2 ∧
      t % 1000 < 1000 ∧ (padZero 3 (t % 1000)).length = 3 ∧
      '-' ∉ format_time us := by
  have hfmt : format_time us =
      padZero 2 ((if pyTotalMs us < 0 then 0 else (pyTotalMs us).toNat) / 3600000) ++
        chars ":" ++
        padZero 2 ((if pyTotalMs us < 0 then 0 else (pyTotalMs us).toNat) % 3600000 / 60000) ++
        chars ":" ++
        padZero 2 ((if pyTotalMs us < 0 then 0 else (pyTotalMs us).toNat) % 60000 / 1000) ++
        chars "," ++
        padZero 3 ((if pyTotalMs us < 0 then 0 else (pyTotalMs us).toNat) % 1000) := rfl
  have hT : (if pyTotalMs us < 0 then 0 else (pyTotalMs us).toNat) < 10 ^ 61 := by
    split_ifs with hneg
    · norm_num
    · unfold pyTotalMs at hneg ⊢
      split_ifs at hneg ⊢ with hus
      · omega
      · have hb : us.toNat < 147573952589676412928 := by omega
        have := floatMsMag_lt hb
        omega
  have hTneg : us < 0 → (if pyTotalMs us < 0 then 0 else (pyTotalMs us).toNat) = 0 := by
    intro hus
    unfold pyTotalMs
    rw [if_pos hus]
    split_ifs with h
    · rfl
    · omega
  obtain ⟨hlen2, hval, hbig, hm60, hlm, hs60, hls, hms, hlms⟩ := format_fields hT
  refine ⟨(if pyTotalMs us < 0 then 0 else (pyTotalMs us).toNat), hfmt, ?_, hlen2,
    hval, hbig, hm60, hlm, hs60, hls, hms, hlms, ?_⟩
  · intro hus
    refine ⟨hTneg hus, ?_⟩
    rw [hfmt, hTneg hus]
    decide
  · rw [hfmt]
    have hp : (10 : Nat) ^ 61 < 10 ^ 64 := by norm_num
    intro hc
    simp only [List.mem_append] at hc
    rcases hc with ((((((hc | hc) | hc) | hc) | hc) | hc) | hc)
    · exact pad_not_dash (by omega) hc
    · exact absurd hc (by decide)
    · exact pad_not_dash (by omega) hc
    · exact absurd hc (by decide)
    · exact pad_not_dash (by omega) hc
    · exact absurd hc (by decide)
    · exact pad_not_dash (by omega) hc

/-- Witness for C9 at `01:02:03,004` (3723004000 microseconds). -/
theorem C9_format_shape_witness :
    ∃ t : Nat,
      format_time 3723004000 =
        padZero 2 (t / 3600000) ++ chars ":" ++ padZero 2 (t % 3600000 / 60000) ++
          chars ":" ++ padZero 2 (t % 60000 / 1000) ++ chars "," ++
          padZero 3 (t % 1000) ∧
      ((3723004000 : Int) < 0 → t = 0 ∧ format_time 3723004000 = chars "00:00:00,000") ∧
      2 ≤ (padZero 2 (t / 3600000)).length ∧
      charsVal (padZero 2 (t / 3600000)) = t / 3600000 ∧
      (99 < t / 3600000 →
        padZero 2 (t / 3600000) = natToChars (t / 3600000) ∧
        3 ≤ (padZero 2 (t / 3600000)).length) ∧
      t % 3600000 / 60000 < 60 ∧ (padZero 2 (t % 3600000 / 60000)).length = 2 ∧
      t % 60000 / 1000 < 60 ∧ (padZero 2 (t % 60000 / 1000)).length = 2 ∧
      t % 1000 < 1000 ∧ (padZero 3 (t % 1000)).length = 3 ∧
      '-' ∉ format_time 3723004000 :=
  @C9_format_shape 3723004000 (by decide) (by decide)
